import Mathlib

/-!
Verification of the MurLock lock coordination engine (felanios/murlock).

The development shallowly embeds the parts of the code the claims are about:

* the Redis-side atomic scripts `lock.lua` and `unlock.lua`, over an explicit
  single-key store (`Store`);
* the `MurLockService` acquire/release/run control flow
  (`attemptLock`, `lock`, `unlock`, `acquireLock`, `releaseLock`,
  `runWithLock`), with the Redis round-trip results supplied by an oracle
  `env` and the performed side effects (EVAL calls, sleeps, body execution,
  release attempt) collected in an event trace;
* an interleaving small-step model (`Step` on `Sys`) of several concurrent
  `runWithLock` call chains incrementing a shared counter, used for the
  mutual-exclusion and owner-token-lifecycle claims.

JavaScript semantics faithfully reflected here:

* In `attemptLock`, the recursive call is written `return attemptLock(...)`
  WITHOUT `await` inside the try block, so a rejection of the recursive call
  bypasses the enclosing catch; the embedding therefore passes errors of the
  recursive call through unwrapped.
* `wait ? (typeof wait === 'function' ? wait(i) : wait) : default`:
  a supplied numeric wait of 0 is falsy and selects the default branch.
* `try { return await fn() } finally { await releaseLock() }`: an error
  thrown by the finally clause replaces the try outcome.
-/

/-! ## The authority store and the two lua scripts -/

/-- A lock record stored in Redis at one key: the owner token (the value the
`set key clientId` call wrote) and the expiry argument (`PX releaseTime`). -/
structure LockRecord where
  owner : String
  ttl : Nat
deriving DecidableEq, Repr

/-- The state of the authority store at a single fixed key: either no record
or a `LockRecord`.  All claims are about operations on one key. -/
abbrev Store := Option LockRecord

/-- The owner stored at the key, if any (`redis.call("get", key)`). -/
def Store.ownerOf (s : Store) : Option String := s.map LockRecord.owner

/-- `lock.lua`:
`if redis.call("get",key) == clientId or redis.call("set", key, clientId, "NX", "PX", releaseTime) then return 1 else return 0 end`.
The lua `or` short-circuits: when the stored value already equals `clientId`
the `set` call is never executed, so the record (and its ttl) is untouched.
Otherwise `set ... NX` writes a fresh record only when the key is absent. -/
def lockScript (s : Store) (clientId : String) (releaseTime : Nat) : Nat × Store :=
  if s.ownerOf = some clientId then
    (1, s)
  else
    match s with
    | none => (1, some ⟨clientId, releaseTime⟩)
    | some _ => (0, s)

/-- `unlock.lua`:
`if redis.call("get", key) == clientId then return redis.call("del", key) else return 0 end`.
`del` returns the number of removed keys, which is 1 here because the `get`
comparison only succeeds when the key is present. -/
def unlockScript (s : Store) (clientId : String) : Nat × Store :=
  if s.ownerOf = some clientId then
    (1, none)
  else
    (0, s)

/-! ## Claims C2 and C3: the atomic primitives -/

/-- Claim C2, as the spec states it: the acquire primitive returns 1 when the
key is absent or owned by `clientId`, and in either of those cases rewrites
the record with the new ttl; otherwise returns 0 and writes nothing. -/
def C2Statement : Prop :=
  ∀ (s : Store) (clientId : String) (releaseTime : Nat),
    ((s = none ∨ s.ownerOf = some clientId) →
      lockScript s clientId releaseTime = (1, some ⟨clientId, releaseTime⟩)) ∧
    ((s ≠ none ∧ s.ownerOf ≠ some clientId) →
      lockScript s clientId releaseTime = (0, s))

/-- Claim C2, counterexample: a re-acquire by the current owner with a new
ttl returns 1 but leaves the stored record (ttl included) untouched, because
the lua `or` short-circuits before the `set ... PX` call; the claim instead
demands that the record be rewritten with the new ttl. -/
theorem C2_counterexample : ¬ C2Statement := by
  intro h
  have h1 := (h (some ⟨"tokenA", 100⟩) "tokenA" 500).1 (Or.inr (by decide))
  have h2 : lockScript (some ⟨"tokenA", 100⟩) "tokenA" 500
      = (1, some ⟨"tokenA", 100⟩) := by decide
  rw [h2] at h1
  exact absurd (Prod.mk.injEq _ _ _ _ ▸ h1).2 (by decide)

/-- Claim C2 (amended): the acquire primitive returns 1 when the key is
absent, and then writes a fresh record carrying the new ttl; it returns 1
when the stored owner already equals `clientId`, but then leaves the record
(ttl included) unchanged; in every other case it returns 0 and writes
nothing. -/
theorem C2_amended_lockScript (s : Store) (clientId : String) (releaseTime : Nat) :
    (s = none →
      lockScript s clientId releaseTime = (1, some ⟨clientId, releaseTime⟩)) ∧
    (s.ownerOf = some clientId →
      lockScript s clientId releaseTime = (1, s)) ∧
    ((s ≠ none ∧ s.ownerOf ≠ some clientId) →
      lockScript s clientId releaseTime = (0, s)) := by
  refine ⟨fun hn => ?_, fun ho => ?_, fun ⟨hn, ho⟩ => ?_⟩
  · subst hn; simp [lockScript, Store.ownerOf]
  · simp [lockScript, ho]
  · cases s with
    | none => exact absurd rfl hn
    | some r => simp [lockScript, ho]

/-- Witness for `C2_amended_lockScript` at concrete inputs: an absent key is
acquired with the requested ttl, a same-owner re-acquire succeeds without
touching the record, and a differently-owned key refuses the acquire. -/
theorem C2_amended_lockScript_witness :
    lockScript none "tokenA" 500 = (1, some ⟨"tokenA", 500⟩) ∧
    lockScript (some ⟨"tokenA", 100⟩) "tokenA" 500 = (1, some ⟨"tokenA", 100⟩) ∧
    lockScript (some ⟨"tokenA", 100⟩) "tokenB" 500 = (0, some ⟨"tokenA", 100⟩) :=
  ⟨(C2_amended_lockScript none "tokenA" 500).1 rfl,
   (C2_amended_lockScript (some ⟨"tokenA", 100⟩) "tokenA" 500).2.1 (by decide),
   (C2_amended_lockScript (some ⟨"tokenA", 100⟩) "tokenB" 500).2.2 ⟨by decide, by decide⟩⟩

/-- Claim C3: the release primitive returns 1 and deletes the record exactly
when the stored owner equals the supplied token; in every other case
(absent record, or record owned by a different token) it returns 0 and
leaves the store unchanged, so a foreign release attempt leaves the record
intact and owned by the original token. -/
theorem C3_unlockScript (s : Store) (clientId : String) :
    (unlockScript s clientId = (1, none) ↔ s.ownerOf = some clientId) ∧
    (s.ownerOf ≠ some clientId → unlockScript s clientId = (0, s)) := by
  constructor
  · constructor
    · intro h
      by_contra ho
      rw [unlockScript, if_neg ho] at h
      have h0 : (0 : Nat) = 1 := congrArg Prod.fst h
      exact absurd h0 (by decide)
    · intro ho; simp [unlockScript, ho]
  · intro ho; simp [unlockScript, ho]

/-- Witness for `C3_unlockScript`: the owner's release deletes the record;
a release with a different token returns 0 and leaves the record intact,
still owned by the original token. -/
theorem C3_unlockScript_witness :
    unlockScript (some ⟨"tokenA", 100⟩) "tokenA" = (1, none) ∧
    unlockScript (some ⟨"tokenA", 100⟩) "tokenB" = (0, some ⟨"tokenA", 100⟩) ∧
    unlockScript none "tokenB" = (0, none) :=
  ⟨(C3_unlockScript (some ⟨"tokenA", 100⟩) "tokenA").1.mpr (by decide),
   (C3_unlockScript (some ⟨"tokenA", 100⟩) "tokenB").2 (by decide),
   (C3_unlockScript none "tokenB").2 (by decide)⟩

/-! ## The MurLockService control flow

Embeds the current `MurLockService` (the version taking an optional per-call
`wait` and storing the client id in async-local storage).  Redis round trips
are abstracted by an oracle: `env i` is the result of the EVAL of `lock.lua`
performed by the attempt with 1-based index `i`, and `uenv` the result of the
EVAL of `unlock.lua`.  Performed effects are collected in a trace. -/

/-- Outcome of one `redisClient.sendCommand` round trip: the script's numeric
reply, or a rejection of the promise (a connection-level failure). -/
inductive EvalResult
  | ok (n : Nat)
  | connErr (msg : String)
deriving DecidableEq, Repr

/-- A JavaScript error value as observed by a caller: which exception class
was constructed, and its `message`.  `raw` stands for an error originating
outside MurLock's own classes (a redis client rejection, or an error thrown
by the caller's body). -/
inductive JsErr
  | murLock (msg : String)
  | murLockRedis (msg : String)
  | raw (msg : String)
deriving DecidableEq, Repr

/-- `error.message`. -/
def JsErr.message : JsErr → String
  | .murLock m => m
  | .murLockRedis m => m
  | .raw m => m

/-- Whether the error is a `MurLockException`. -/
def JsErr.isMurLockException : JsErr → Bool
  | .murLock _ => true
  | _ => false

/-- Observable side effects of one `runWithLock` call. -/
inductive Event
  | eval (attemptIdx : Nat)
  | sleep (ms : Nat)
  | runBody
  | releaseAttempt
deriving DecidableEq, Repr

/-- The options actually consumed by the lock/unlock control flow
(`MurLockModuleOptions` minus the connection parameters and log level,
which only configure I/O). -/
structure MurLockModuleOptions where
  wait : Nat
  maxAttempts : Nat
  ignoreUnlockFail : Bool
deriving DecidableEq, Repr

/-- A per-call wait override: a fixed number of milliseconds or a function of
the 1-based attempt number (`wait?: number | ((retries: number) => number)`). -/
inductive WaitParam
  | fixed (ms : Nat)
  | fn (f : Nat → Nat)

/-- The delay expression of `attemptLock`:
`wait ? (typeof wait === 'function' ? wait(i) : wait) : this.options.wait * i`
where `i = this.options.maxAttempts - attemptsRemaining + 1`.
JavaScript truthiness: an absent `wait` and a supplied numeric `wait` of `0`
are both falsy and select the default product; a function is always truthy. -/
def computeDelay (options : MurLockModuleOptions) (wait : Option WaitParam)
    (attemptIdx : Nat) : Nat :=
  match wait with
  | some (.fn f) => f attemptIdx
  | some (.fixed w) => if w = 0 then options.wait * attemptIdx else w
  | none => options.wait * attemptIdx

/-- Message of the exception thrown when attempts are exhausted. -/
def failedAfterMsg (lockKey : String) (maxAttempts : Nat) : String :=
  "Failed to obtain lock for key " ++ lockKey ++ " after " ++
    toString maxAttempts ++ " attempts."

/-- Message of the exception the catch block of an attempt constructs around
an error caught inside that attempt's try block. -/
def unexpectedMsg (lockKey innerMsg : String) : String :=
  "Unexpected error when trying to obtain lock for key " ++ lockKey ++ ": " ++ innerMsg

/-- `attemptLock` of `MurLockService.lock`, with its event trace.

* `attemptsRemaining = 0`: throws the attempts-exhausted `MurLockException`.
* Otherwise one EVAL of `lock.lua` runs (attempt index
  `i = maxAttempts - attemptsRemaining + 1`); a rejection of that awaited
  round trip is caught and wrapped once as
  `MurLockException(unexpectedMsg ...)`; a reply of 1 returns true; any other
  reply sleeps for `computeDelay` and recurses.
* The recursion is `return attemptLock(attemptsRemaining - 1)` WITHOUT
  `await`, so the enclosing try/catch never observes a rejection of the
  recursive call: its outcome is passed through unchanged.

The index arithmetic uses truncated subtraction; it coincides with the
JavaScript integers on every call reachable from the entry point `lock`,
where `attemptsRemaining ≤ maxAttempts`. -/
def attemptLock (options : MurLockModuleOptions) (lockKey : String)
    (wait : Option WaitParam) (env : Nat → EvalResult) :
    Nat → Except JsErr Bool × List Event
  | 0 => (.error (.murLock (failedAfterMsg lockKey options.maxAttempts)), [])
  | r + 1 =>
    let i := options.maxAttempts - (r + 1) + 1
    match env i with
    | .connErr m => (.error (.murLock (unexpectedMsg lockKey m)), [.eval i])
    | .ok n =>
      if n = 1 then
        (.ok true, [.eval i])
      else
        let d := computeDelay options wait i
        let rest := attemptLock options lockKey wait env r
        (rest.1, .eval i :: .sleep d :: rest.2)

/-- `MurLockService.lock`: runs `attemptLock(this.options.maxAttempts)`. -/
def MurLockService.lock (options : MurLockModuleOptions) (lockKey : String)
    (wait : Option WaitParam) (env : Nat → EvalResult) :
    Except JsErr Bool × List Event :=
  attemptLock options lockKey wait env options.maxAttempts

/-- `MurLockService.unlock`: one EVAL of `unlock.lua` (`uenv`); a reply of 0
throws `MurLockException` unless `ignoreUnlockFail` is set, in which case the
failure is only logged; a rejection of the round trip propagates as is. -/
def MurLockService.unlock (options : MurLockModuleOptions) (lockKey : String)
    (uenv : EvalResult) : Except JsErr Unit :=
  match uenv with
  | .connErr m => .error (.raw m)
  | .ok n =>
    if n = 0 then
      if ¬ options.ignoreUnlockFail then
        .error (.murLock ("Failed to release lock for key " ++ lockKey))
      else
        .ok ()
    else
      .ok ()

/-- `MurLockService.acquireLock`: awaits `lock` inside a try whose catch
wraps any error once more, then turns a `false` result into its own
`MurLockException`. -/
def MurLockService.acquireLock (options : MurLockModuleOptions) (lockKey : String)
    (wait : Option WaitParam) (env : Nat → EvalResult) :
    Except JsErr Unit × List Event :=
  let res := MurLockService.lock options lockKey wait env
  match res.1 with
  | .error e =>
    (.error (.murLock ("Failed to acquire lock for key " ++ lockKey ++ ": " ++ e.message)),
     res.2)
  | .ok true => (.ok (), res.2)
  | .ok false =>
    (.error (.murLock ("Could not obtain lock for key " ++ lockKey)), res.2)

/-- `MurLockService.releaseLock`: awaits `unlock` inside a try whose catch
wraps the error once. -/
def MurLockService.releaseLock (options : MurLockModuleOptions) (lockKey : String)
    (uenv : EvalResult) : Except JsErr Unit :=
  match MurLockService.unlock options lockKey uenv with
  | .error e =>
    .error (.murLock ("Failed to release lock for key " ++ lockKey ++ ": " ++ e.message))
  | .ok () => .ok ()

/-- `MurLockService.runWithLock`: registers a context, mints a client id,
acquires, then `try { return await operation() } finally { await releaseLock }`.
The token plumbing is modelled separately (`Sys` below); here the call is
viewed from one chain, with `body` the outcome of `operation()`.  JavaScript
try/finally: when the finally clause throws, its error replaces the try
outcome, whether that outcome was a value or an error. -/
def MurLockService.runWithLock {R : Type} (options : MurLockModuleOptions)
    (lockKey : String) (wait : Option WaitParam) (env : Nat → EvalResult)
    (body : Except JsErr R) (uenv : EvalResult) :
    Except JsErr R × List Event :=
  let acq := MurLockService.acquireLock options lockKey wait env
  match acq.1 with
  | .error e => (.error e, acq.2)
  | .ok () =>
    match MurLockService.releaseLock options lockKey uenv with
    | .error re => (.error re, acq.2 ++ [.runBody, .releaseAttempt])
    | .ok () => (body, acq.2 ++ [.runBody, .releaseAttempt])

/-! ## Claim C8: the inter-attempt delay -/

/-- Claim C8, as the spec states it: a supplied fixed wait is used as is, a
supplied wait function is applied to the 1-based attempt index, and in the
absence of both the delay is `baseWait * attemptIdx`. -/
def C8Statement : Prop :=
  ∀ (options : MurLockModuleOptions) (attemptIdx : Nat),
    (∀ w, computeDelay options (some (.fixed w)) attemptIdx = w) ∧
    (∀ f, computeDelay options (some (.fn f)) attemptIdx = f attemptIdx) ∧
    computeDelay options none attemptIdx = options.wait * attemptIdx

/-- Claim C8, counterexample: a caller-supplied fixed wait of 0 is falsy in
`wait ? ... : ...`, so the delay falls back to the default
`baseWait * attemptIdx` (50 here) instead of the supplied 0. -/
theorem C8_counterexample : ¬ C8Statement := by
  intro h
  have h0 := (h ⟨50, 3, false⟩ 1).1 0
  have : (50 : Nat) = 0 := by
    have hc : computeDelay ⟨50, 3, false⟩ (some (.fixed 0)) 1 = 50 := rfl
    rw [hc] at h0
    exact h0
  exact absurd this (by decide)

/-- Claim C8 (amended): a supplied nonzero fixed wait is used as is; a
supplied fixed wait of 0 is falsy and falls back to the default formula; a
supplied wait function is applied to the 1-based attempt index; with no
supplied wait the delay is `baseWait * attemptIdx` — linear in the attempt
index, not exponential. -/
theorem C8_amended_computeDelay (options : MurLockModuleOptions) (attemptIdx : Nat) :
    (∀ w, w ≠ 0 → computeDelay options (some (.fixed w)) attemptIdx = w) ∧
    (computeDelay options (some (.fixed 0)) attemptIdx = options.wait * attemptIdx) ∧
    (∀ f, computeDelay options (some (.fn f)) attemptIdx = f attemptIdx) ∧
    computeDelay options none attemptIdx = options.wait * attemptIdx := by
  refine ⟨fun w hw => ?_, rfl, fun f => rfl, rfl⟩
  simp [computeDelay, hw]

/-- Witness for `C8_amended_computeDelay` at concrete inputs: a supplied
fixed wait of 70 is used as is (second attempt), a supplied wait of 0 gives
the default 50·2, a supplied function gets the attempt index, and no
supplied wait gives 50·2. -/
theorem C8_amended_computeDelay_witness :
    computeDelay ⟨50, 3, false⟩ (some (.fixed 70)) 2 = 70 ∧
    computeDelay ⟨50, 3, false⟩ (some (.fixed 0)) 2 = 100 ∧
    computeDelay ⟨50, 3, false⟩ (some (.fn (fun i => 10 * i))) 2 = 20 ∧
    computeDelay ⟨50, 3, false⟩ none 2 = 100 :=
  ⟨(C8_amended_computeDelay ⟨50, 3, false⟩ 2).1 70 (by decide),
   (C8_amended_computeDelay ⟨50, 3, false⟩ 2).2.1,
   (C8_amended_computeDelay ⟨50, 3, false⟩ 2).2.2.1 (fun i => 10 * i),
   (C8_amended_computeDelay ⟨50, 3, false⟩ 2).2.2.2⟩

/-! ## Traces of the acquire loop -/

/-- The trace of `r` consecutive failed attempts starting at attempt index
`i`: each failed EVAL is followed by its backoff sleep. -/
def boundedFailTrace (options : MurLockModuleOptions) (wait : Option WaitParam) :
    Nat → Nat → List Event
  | _, 0 => []
  | i, r + 1 =>
    .eval i :: .sleep (computeDelay options wait i) ::
      boundedFailTrace options wait (i + 1) r

/-- Whether an event is an EVAL round trip. -/
def Event.isEval : Event → Bool
  | .eval _ => true
  | _ => false

/-- Whether an event is a backoff sleep. -/
def Event.isSleep : Event → Bool
  | .sleep _ => true
  | _ => false

/-- Number of EVAL round trips in a trace. -/
def countEvals (tr : List Event) : Nat := (tr.filter Event.isEval).length

/-- Number of backoff sleeps in a trace. -/
def countSleeps (tr : List Event) : Nat := (tr.filter Event.isSleep).length

theorem boundedFailTrace_counts (options : MurLockModuleOptions)
    (wait : Option WaitParam) :
    ∀ r i, countEvals (boundedFailTrace options wait i r) = r ∧
      countSleeps (boundedFailTrace options wait i r) = r ∧
      Event.runBody ∉ boundedFailTrace options wait i r := by
  intro r
  induction r with
  | zero =>
    intro i
    refine ⟨rfl, rfl, ?_⟩
    simp [boundedFailTrace]
  | succ r ih =>
    intro i
    have h := ih (i + 1)
    refine ⟨?_, ?_, ?_⟩
    · simpa [boundedFailTrace, countEvals, Event.isEval, Event.isSleep] using h.1
    · simpa [boundedFailTrace, countSleeps, Event.isEval, Event.isSleep] using h.2.1
    · simp [boundedFailTrace]
      exact h.2.2

/-- Unfolding `attemptLock` when attempts remain and the EVAL reports the key
as held (reply 0). -/
theorem attemptLock_succ_fail (options : MurLockModuleOptions) (k : String)
    (wait : Option WaitParam) (env : Nat → EvalResult) (r : Nat)
    (h : env (options.maxAttempts - (r + 1) + 1) = .ok 0) :
    attemptLock options k wait env (r + 1) =
      ((attemptLock options k wait env r).1,
       .eval (options.maxAttempts - (r + 1) + 1) ::
       .sleep (computeDelay options wait (options.maxAttempts - (r + 1) + 1)) ::
       (attemptLock options k wait env r).2) := by
  simp only [attemptLock, h]
  rfl

/-- Unfolding `attemptLock` when attempts remain and the EVAL round trip
rejects: the catch wraps the error once and nothing further runs. -/
theorem attemptLock_succ_conn (options : MurLockModuleOptions) (k : String)
    (wait : Option WaitParam) (env : Nat → EvalResult) (r : Nat) (m : String)
    (h : env (options.maxAttempts - (r + 1) + 1) = .connErr m) :
    attemptLock options k wait env (r + 1) =
      (.error (.murLock (unexpectedMsg k m)),
       [.eval (options.maxAttempts - (r + 1) + 1)]) := by
  simp only [attemptLock, h]

/-- With the key continuously held by another owner (every EVAL replies 0),
`attemptLock r` performs `r` failed attempts, each followed by its backoff
sleep, and surfaces the attempts-exhausted `MurLockException` unwrapped —
the rejection of the innermost recursive call bypasses the enclosing
catches.  `b` is the number of attempts already consumed (`b + r = maxAttempts`). -/
theorem attemptLock_contended (options : MurLockModuleOptions) (k : String)
    (wait : Option WaitParam) (env : Nat → EvalResult)
    (henv : ∀ i, env i = .ok 0) :
    ∀ r b, b + r = options.maxAttempts →
      attemptLock options k wait env r =
        (.error (.murLock (failedAfterMsg k options.maxAttempts)),
         boundedFailTrace options wait (b + 1) r) := by
  intro r
  induction r with
  | zero => intro b hb; rfl
  | succ r ih =>
    intro b hb
    have hidx : options.maxAttempts - (r + 1) + 1 = b + 1 := by omega
    have hstep := attemptLock_succ_fail options k wait env r (henv _)
    rw [hstep, ih (b + 1) (by omega), hidx]
    rfl

/-- A connection-level EVAL failure at attempt `b + j` (after `j - 1`
ordinary contention failures) stops the loop at once: the trace ends with
the failing EVAL — no further attempts, no further sleeps — and the error
surfaces wrapped exactly once as `MurLockException(unexpectedMsg ...)`. -/
theorem attemptLock_conn_stops (options : MurLockModuleOptions) (k : String)
    (wait : Option WaitParam) (env : Nat → EvalResult) (m : String) :
    ∀ r b j, b + r = options.maxAttempts → 1 ≤ j → j ≤ r →
      (∀ i, b + 1 ≤ i → i < b + j → env i = .ok 0) →
      env (b + j) = .connErr m →
      attemptLock options k wait env r =
        (.error (.murLock (unexpectedMsg k m)),
         boundedFailTrace options wait (b + 1) (j - 1) ++ [.eval (b + j)]) := by
  intro r
  induction r with
  | zero => intro b j _ hj1 hj0 _ _; omega
  | succ r ih =>
    intro b j hb hj1 hjr hpre hconn
    have hidx : options.maxAttempts - (r + 1) + 1 = b + 1 := by omega
    rcases Nat.eq_or_lt_of_le hj1 with h1 | h1
    · have hc : env (options.maxAttempts - (r + 1) + 1) = .connErr m := by
        rw [hidx]
        have : b + j = b + 1 := by omega
        rw [← this]
        exact hconn
      rw [attemptLock_succ_conn options k wait env r m hc, hidx]
      have hj : j - 1 = 0 := by omega
      have hbj : b + j = b + 1 := by omega
      rw [hj, hbj]
      rfl
    · have hfirst : env (options.maxAttempts - (r + 1) + 1) = .ok 0 := by
        rw [hidx]
        exact hpre (b + 1) (Nat.le_refl _) (by omega)
      have hstep := attemptLock_succ_fail options k wait env r hfirst
      have hih := ih (b + 1) (j - 1) (by omega) (by omega) (by omega)
        (fun i hi1 hi2 => hpre i (by omega) (by omega))
        (by
          have h2 : b + 1 + (j - 1) = b + j := by omega
          rw [h2]
          exact hconn)
      rw [hstep, hih, hidx]
      have h2 : b + 1 + (j - 1) = b + j := by omega
      have h3 : j - 1 = (j - 2) + 1 := by omega
      rw [h2, h3]
      rfl

/-! ## Claim C4: bounded-mode termination -/

/-- Claim C4: in bounded mode with `maxAttempts = M ≥ 1` and a key
continuously held by a different owner (every EVAL replies 0), `runWithLock`
surfaces an acquisition-failure `MurLockException` after exactly `M` failed
attempts — the trace holds exactly `M` EVALs and `M` backoff sleeps, one
sleep after every failed attempt, the last included — and the body is never
invoked. -/
theorem C4_bounded_exhaustion {R : Type} (options : MurLockModuleOptions)
    (k : String) (wait : Option WaitParam) (env : Nat → EvalResult)
    (body : Except JsErr R) (uenv : EvalResult)
    (hM : 1 ≤ options.maxAttempts) (henv : ∀ i, env i = .ok 0) :
    MurLockService.runWithLock options k wait env body uenv =
      (.error (.murLock ("Failed to acquire lock for key " ++ k ++ ": " ++
         failedAfterMsg k options.maxAttempts)),
       boundedFailTrace options wait 1 options.maxAttempts) ∧
    countEvals (boundedFailTrace options wait 1 options.maxAttempts) =
      options.maxAttempts ∧
    countSleeps (boundedFailTrace options wait 1 options.maxAttempts) =
      options.maxAttempts ∧
    Event.runBody ∉ boundedFailTrace options wait 1 options.maxAttempts := by
  have hlock := attemptLock_contended options k wait env henv options.maxAttempts 0
    (by omega)
  have hcounts := boundedFailTrace_counts options wait options.maxAttempts 1
  refine ⟨?_, hcounts.1, hcounts.2.1, hcounts.2.2⟩
  unfold MurLockService.runWithLock MurLockService.acquireLock MurLockService.lock
  rw [hlock]
  rfl

/-- Witness for `C4_bounded_exhaustion`: the spec's own scenario — key k1
held by another owner, `maxAttempts = 1`, base wait 50 ms — raises the
acquisition failure after one failed attempt and one 50 ms sleep, and the
body is never invoked. -/
theorem C4_bounded_exhaustion_witness :
    MurLockService.runWithLock ⟨50, 1, false⟩ "k1" none (fun _ => .ok 0)
        (Except.ok (0 : Nat)) (.ok 1) =
      (.error (.murLock
        "Failed to acquire lock for key k1: Failed to obtain lock for key k1 after 1 attempts."),
       [.eval 1, .sleep 50]) ∧
    Event.runBody ∉ ([.eval 1, .sleep 50] : List Event) := by
  have h := C4_bounded_exhaustion (R := Nat) ⟨50, 1, false⟩ "k1" none
    (fun _ => .ok 0) (Except.ok 0) (.ok 1) (by decide) (fun i => rfl)
  refine ⟨?_, by decide⟩
  rw [h.1]
  rfl

/-! ## Claim C7: connection-level failure during an acquire attempt -/

/-- The error a `runWithLock` call surfaces, if any. -/
def surfacedErr {R : Type} (p : Except JsErr R × List Event) : Option JsErr :=
  match p.1 with
  | .error e => some e
  | .ok _ => none

/-- Claim C7, counterexample to the "distinct ConnectionError" part: at
concrete inputs, a connection-level failure during the acquire attempt and
an ordinary contention exhaustion both surface as the same exception class,
`MurLockException` — the catch of the attempt wraps the redis rejection in
`MurLockException`, so infrastructure failure is NOT surfaced as a distinct
connection-error class. -/
theorem C7_counterexample :
    (surfacedErr (MurLockService.runWithLock ⟨50, 1, false⟩ "k1" none
        (fun _ => .connErr "connection refused") (Except.ok (0 : Nat)) (.ok 1))).map
      JsErr.isMurLockException = some true ∧
    (surfacedErr (MurLockService.runWithLock ⟨50, 1, false⟩ "k1" none
        (fun _ => .ok 0) (Except.ok (0 : Nat)) (.ok 1))).map
      JsErr.isMurLockException = some true :=
  ⟨rfl, rfl⟩

/-- Claim C7 (amended): a connection-level failure at acquire attempt `j`
(after `j - 1` ordinary contention failures) is never retried: the trace
ends with the failing EVAL — exactly `j` EVALs and `j - 1` sleeps, so no
further attempt and no backoff sleep follows it — it propagates immediately
to the caller, and the body is never invoked; but it surfaces wrapped as a
`MurLockException` (the same exception class as ordinary contention
failure), not as a distinct connection-error class. -/
theorem C7_amended_connection_error_stops_loop {R : Type}
    (options : MurLockModuleOptions) (k : String) (wait : Option WaitParam)
    (env : Nat → EvalResult) (m : String) (body : Except JsErr R)
    (uenv : EvalResult) (j : Nat) (hj1 : 1 ≤ j) (hjM : j ≤ options.maxAttempts)
    (hpre : ∀ i, 1 ≤ i → i < j → env i = .ok 0)
    (hconn : env j = .connErr m) :
    MurLockService.runWithLock options k wait env body uenv =
      (.error (.murLock ("Failed to acquire lock for key " ++ k ++ ": " ++
         unexpectedMsg k m)),
       boundedFailTrace options wait 1 (j - 1) ++ [.eval j]) ∧
    countEvals (boundedFailTrace options wait 1 (j - 1) ++ [.eval j]) = j ∧
    countSleeps (boundedFailTrace options wait 1 (j - 1) ++ [.eval j]) = j - 1 ∧
    Event.runBody ∉ boundedFailTrace options wait 1 (j - 1) ++ [.eval j] := by
  have hlock := attemptLock_conn_stops options k wait env m options.maxAttempts 0 j
    (by omega) hj1 hjM
    (fun i hi1 hi2 => hpre i (by omega) (by omega))
    (by
      have h0 : (0 : Nat) + j = j := by omega
      rw [h0]
      exact hconn)
  rw [Nat.zero_add, Nat.zero_add] at hlock
  have hcounts := boundedFailTrace_counts options wait (j - 1) 1
  refine ⟨?_, ?_, ?_, ?_⟩
  · unfold MurLockService.runWithLock MurLockService.acquireLock MurLockService.lock
    rw [hlock]
    rfl
  · have h1 : countEvals (boundedFailTrace options wait 1 (j - 1) ++ [.eval j]) =
        countEvals (boundedFailTrace options wait 1 (j - 1)) + 1 := by
      simp [countEvals, List.filter_append, Event.isEval]
    rw [h1, hcounts.1]
    omega
  · have h1 : countSleeps (boundedFailTrace options wait 1 (j - 1) ++ [.eval j]) =
        countSleeps (boundedFailTrace options wait 1 (j - 1)) := by
      simp [countSleeps, List.filter_append, Event.isSleep]
    rw [h1, hcounts.2.1]
  · intro hmem
    rcases List.mem_append.mp hmem with h | h
    · exact hcounts.2.2 h
    · simp at h

/-- Witness for `C7_amended_connection_error_stops_loop`: with
`maxAttempts = 3`, attempt 1 finds the key held and attempt 2 rejects with
"boom"; the call stops right there — two EVALs, one sleep, nothing after the
failing EVAL — surfacing the once-wrapped `MurLockException`, and the body
never runs. -/
theorem C7_amended_connection_error_stops_loop_witness :
    MurLockService.runWithLock ⟨50, 3, false⟩ "k1" none
        (fun i => if i = 2 then .connErr "boom" else .ok 0)
        (Except.ok (0 : Nat)) (.ok 1) =
      (.error (.murLock
        "Failed to acquire lock for key k1: Unexpected error when trying to obtain lock for key k1: boom"),
       [.eval 1, .sleep 50, .eval 2]) ∧
    countEvals [.eval 1, .sleep 50, .eval 2] = 2 ∧
    countSleeps [.eval 1, .sleep 50, .eval 2] = 1 ∧
    Event.runBody ∉ ([.eval 1, .sleep 50, .eval 2] : List Event) := by
  have h := C7_amended_connection_error_stops_loop (R := Nat) ⟨50, 3, false⟩ "k1"
    none (fun i => if i = 2 then .connErr "boom" else .ok 0) "boom"
    (Except.ok 0) (.ok 1) 2 (by decide) (by decide)
    (fun i h1 h2 => by
      have hi : i = 1 := by omega
      subst hi
      rfl)
    rfl
  refine ⟨?_, by decide, by decide, by decide⟩
  rw [h.1]
  rfl

/-! ## Claim C10: the implicit re-wrapping claim -/

/-- `n` nested applications of the per-attempt wrapper around a message. -/
def wrapTimes (k : String) : Nat → String → String
  | 0, m => m
  | n + 1, m => unexpectedMsg k (wrapTimes k n m)

/-- Claim C10, as stated: because the try/catch of each attempt supposedly
encloses the recursive call, an ordinary contention exhaustion with
`maxAttempts = M ≥ 2` would surface re-wrapped by every enclosing attempt,
with nesting depth equal to the number of enclosing attempts (`M`). -/
def C10Statement : Prop :=
  ∀ (options : MurLockModuleOptions) (k : String) (wait : Option WaitParam)
    (env : Nat → EvalResult),
    2 ≤ options.maxAttempts → (∀ i, env i = .ok 0) →
    (MurLockService.lock options k wait env).1 =
      .error (.murLock (wrapTimes k options.maxAttempts
        (failedAfterMsg k options.maxAttempts)))

/-- Claim C10, counterexample: with `maxAttempts = 2` and the key always
held, the surfaced message is the bare attempts-exhausted message with no
"Unexpected error ..." wrapper at all — the recursive call is returned
without `await`, so its rejection bypasses every enclosing catch. -/
theorem C10_counterexample : ¬ C10Statement := by
  intro h
  have h2 := h ⟨50, 2, false⟩ "k1" none (fun _ => .ok 0) (by decide) (fun i => rfl)
  have h3 : (MurLockService.lock ⟨50, 2, false⟩ "k1" none (fun _ => .ok 0)).1 =
      .error (.murLock (failedAfterMsg "k1" 2)) := rfl
  rw [h3] at h2
  simp only [Except.error.injEq, JsErr.murLock.injEq] at h2
  exact absurd h2 (by decide)

/-- Claim C10 (amended): the recursive call is returned without `await`
inside the try block, so the enclosing catch never observes errors of deeper
attempts; consequently, for every `maxAttempts = M ≥ 2`, an ordinary
contention exhaustion surfaces as the bare attempts-exhausted
`MurLockException` with zero "Unexpected error" wrappers, while a
connection-level failure at attempt `j` surfaces with exactly one such
wrapper, added by the catch of the attempt where it occurred. -/
theorem C10_amended_no_rewrapping
    (options : MurLockModuleOptions) (k : String) (wait : Option WaitParam)
    (env env2 : Nat → EvalResult) (m : String) (j : Nat)
    (hM : 2 ≤ options.maxAttempts)
    (henv : ∀ i, env i = .ok 0)
    (hj1 : 1 ≤ j) (hjM : j ≤ options.maxAttempts)
    (hpre : ∀ i, 1 ≤ i → i < j → env2 i = .ok 0)
    (hconn : env2 j = .connErr m) :
    (MurLockService.lock options k wait env).1 =
      .error (.murLock (wrapTimes k 0 (failedAfterMsg k options.maxAttempts))) ∧
    (MurLockService.lock options k wait env2).1 =
      .error (.murLock (wrapTimes k 1 m)) := by
  constructor
  · have hlock := attemptLock_contended options k wait env henv options.maxAttempts 0
      (by omega)
    unfold MurLockService.lock
    rw [hlock]
    rfl
  · have hlock := attemptLock_conn_stops options k wait env2 m options.maxAttempts 0 j
      (by omega) hj1 hjM
      (fun i hi1 hi2 => hpre i (by omega) (by omega))
      (by
        have h0 : (0 : Nat) + j = j := by omega
        rw [h0]
        exact hconn)
    unfold MurLockService.lock
    rw [hlock]
    rfl

/-- Witness for `C10_amended_no_rewrapping` at `maxAttempts = 2`: exhaustion
surfaces unwrapped, a connection failure at attempt 1 surfaces wrapped
exactly once. -/
theorem C10_amended_no_rewrapping_witness :
    (MurLockService.lock ⟨50, 2, false⟩ "k1" none (fun _ => .ok 0)).1 =
      .error (.murLock "Failed to obtain lock for key k1 after 2 attempts.") ∧
    (MurLockService.lock ⟨50, 2, false⟩ "k1" none (fun _ => .connErr "boom")).1 =
      .error (.murLock
        "Unexpected error when trying to obtain lock for key k1: boom") := by
  have h := C10_amended_no_rewrapping ⟨50, 2, false⟩ "k1" none (fun _ => .ok 0)
    (fun _ => .connErr "boom") "boom" 1 (by decide) (fun i => rfl) (by decide)
    (by decide) (fun i h1 h2 => by omega) rfl
  refine ⟨?_, ?_⟩
  · rw [h.1]
    rfl
  · rw [h.2]
    rfl

/-! ## Claim C6: body error vs release error -/

/-- Claim C6, as stated: whenever acquisition succeeds and both the body and
the release fail, the caller receives the body's error; the release failure
never replaces it. -/
def C6Statement : Prop :=
  ∀ (options : MurLockModuleOptions) (k : String) (wait : Option WaitParam)
    (env : Nat → EvalResult) (uenv : EvalResult) (eb : JsErr),
    (MurLockService.acquireLock options k wait env).1 = .ok () →
    ∀ er, MurLockService.releaseLock options k uenv = .error er →
    (MurLockService.runWithLock options k wait env
        (Except.error eb : Except JsErr Nat) uenv).1 = .error eb

/-- Claim C6, counterexample: acquisition succeeds, the body throws
"body boom", and the release EVAL reports an ownership mismatch (reply 0)
with `ignoreUnlockFail` unset; the caller receives the release failure, not
the body's error — `try { return await fn() } finally { await releaseLock }`
lets an error thrown by the finally clause replace the body's error. -/
theorem C6_counterexample : ¬ C6Statement := by
  intro h
  have hmask := h ⟨50, 1, false⟩ "k1" none (fun _ => .ok 1) (.ok 0)
    (.raw "body boom") rfl
    (.murLock "Failed to release lock for key k1: Failed to release lock for key k1")
    rfl
  have h2 : (MurLockService.runWithLock ⟨50, 1, false⟩ "k1" none (fun _ => .ok 1)
      (Except.error (.raw "body boom") : Except JsErr Nat) (.ok 0)).1 =
      .error (.murLock
        "Failed to release lock for key k1: Failed to release lock for key k1") := rfl
  rw [h2] at hmask
  exact absurd hmask (by simp)

/-- Claim C6 (amended): whenever acquisition succeeds, the release is
attempted after the body on every exit path; but when the release fails,
its `MurLockException` replaces whatever the body produced — in particular,
when both the body and the release fail, the caller receives the release
failure and the body's error is lost.  Only when the release attempt
resolves (in particular when `ignoreUnlockFail` swallows the mismatch) does
the body's outcome, its error included, surface to the caller. -/
theorem C6_amended_release_error_replaces_body {R : Type}
    (options : MurLockModuleOptions) (k : String) (wait : Option WaitParam)
    (env : Nat → EvalResult) (body : Except JsErr R) (uenv : EvalResult)
    (hacq : (MurLockService.acquireLock options k wait env).1 = .ok ()) :
    (MurLockService.runWithLock options k wait env body uenv).2 =
      (MurLockService.acquireLock options k wait env).2 ++
        [.runBody, .releaseAttempt] ∧
    (∀ er, MurLockService.releaseLock options k uenv = .error er →
      (MurLockService.runWithLock options k wait env body uenv).1 = .error er) ∧
    (MurLockService.releaseLock options k uenv = .ok () →
      (MurLockService.runWithLock options k wait env body uenv).1 = body) := by
  cases hrel : MurLockService.releaseLock options k uenv with
  | error er =>
    have hrun : MurLockService.runWithLock options k wait env body uenv =
        (.error er,
         (MurLockService.acquireLock options k wait env).2 ++
           [.runBody, .releaseAttempt]) := by
      simp only [MurLockService.runWithLock, hacq, hrel]
    refine ⟨by rw [hrun], fun er2 her2 => ?_, fun hok => ?_⟩
    · rw [hrun]
      simpa using her2
    · exact absurd hok (by simp)
  | ok u =>
    cases u
    have hrun : MurLockService.runWithLock options k wait env body uenv =
        (body,
         (MurLockService.acquireLock options k wait env).2 ++
           [.runBody, .releaseAttempt]) := by
      simp only [MurLockService.runWithLock, hacq, hrel]
    refine ⟨by rw [hrun], fun er2 her2 => ?_, fun hok => by rw [hrun]⟩
    exact absurd her2 (by simp)

/-- Witness for `C6_amended_release_error_replaces_body`: acquisition
succeeds on the first EVAL, the body throws "body boom", the release EVAL
reports 0.  With `ignoreUnlockFail` unset the caller receives the release
`MurLockException`; with `ignoreUnlockFail` set the mismatch is swallowed
and the body's own error surfaces. -/
theorem C6_amended_release_error_replaces_body_witness :
    (MurLockService.runWithLock ⟨50, 1, false⟩ "k1" none (fun _ => .ok 1)
        (Except.error (.raw "body boom") : Except JsErr Nat) (.ok 0)).1 =
      .error (.murLock
        "Failed to release lock for key k1: Failed to release lock for key k1") ∧
    (MurLockService.runWithLock ⟨50, 1, true⟩ "k1" none (fun _ => .ok 1)
        (Except.error (.raw "body boom") : Except JsErr Nat) (.ok 0)).1 =
      .error (.raw "body boom") ∧
    (MurLockService.runWithLock ⟨50, 1, false⟩ "k1" none (fun _ => .ok 1)
        (Except.error (.raw "body boom") : Except JsErr Nat) (.ok 0)).2 =
      [.eval 1, .runBody, .releaseAttempt] := by
  have h1 := C6_amended_release_error_replaces_body (R := Nat) ⟨50, 1, false⟩ "k1"
    none (fun _ => .ok 1) (Except.error (.raw "body boom")) (.ok 0) rfl
  have h2 := C6_amended_release_error_replaces_body (R := Nat) ⟨50, 1, true⟩ "k1"
    none (fun _ => .ok 1) (Except.error (.raw "body boom")) (.ok 0) rfl
  refine ⟨h1.2.1 _ rfl, ?_, ?_⟩
  · rw [h2.2.2 rfl]
  · rw [h1.1]
    rfl

/-! ## Interleaving model of concurrent runWithLock call chains

Several call chains of one process share the authority store and the
`MurLockService`.  Each chain runs `runWithLock` on the same key with a body
that increments a shared counter non-atomically (read, then write back
`v + 1` and return it) — the body shape of the spec's mutual-exclusion
property and of the e2e counter test.  A chain's program counter `Pc`
carries the owner token it minted (`registerContext` +
`setClientID('clientId', generateUuid())` + `get`), which async-local
storage keeps isolated per chain; uuid freshness is modelled by minting from
the strictly increasing `nextTok`.  The acquire transition is exactly
`lock.lua` (succeeds iff the key is free or already carries this token) and
the release transition is exactly `unlock.lua` (deletes the record only when
it carries this token).  A failed acquire changes no state and is therefore
not a transition; ttl expiry is outside the model, matching the claim's
"while the lock record is held" reading. -/

/-- Program counter of one `runWithLock` call chain. -/
inductive Pc
  | start
  | acquiring (tok : Nat)
  | reading (tok : Nat)
  | writing (tok : Nat) (v : Nat)
  | releasing (tok : Nat) (ret : Nat)
  | done (tok : Nat) (ret : Nat)
deriving DecidableEq, Repr

/-- The owner token the chain has minted, if any. -/
def Pc.tokOf : Pc → Option Nat
  | .start => none
  | .acquiring t => some t
  | .reading t => some t
  | .writing t _ => some t
  | .releasing t _ => some t
  | .done t _ => some t

/-- The value the chain's body has produced, if the write already happened. -/
def Pc.retOf : Pc → Option Nat
  | .releasing _ r => some r
  | .done _ r => some r
  | _ => none

/-- The chain is inside its body (between successful acquire and the
counter write-back / release). -/
def Pc.inBody : Pc → Bool
  | .reading _ => true
  | .writing _ _ => true
  | _ => false

/-- The chain holds the lock record (successful acquire, not yet released). -/
def Pc.holding : Pc → Bool
  | .reading _ => true
  | .writing _ _ => true
  | .releasing _ _ => true
  | _ => false

/-- The chain has already written the counter back. -/
def Pc.passed (p : Pc) : Bool := p.retOf.isSome

/-- The chain has completed (body run, release attempted). -/
def Pc.isDone : Pc → Bool
  | .done _ _ => true
  | _ => false

/-- Global state: the single lock record's owner (`lock`), the shared
counter, the supply of fresh tokens, and each chain's program counter. -/
structure Sys (n : Nat) where
  lock : Option Nat
  counter : Nat
  nextTok : Nat
  procs : Fin n → Pc

/-- One interleaved step: some chain `i` performs its next atomic action.
`acquire` is `lock.lua` (guard `lock = none ∨ lock = some t`, then the
record carries `t`); `release` is `unlock.lua` (the record is deleted only
if it carries `t`).  Body reads and writes are separate steps, so body
sections of two chains could interleave if the lock ever allowed it. -/
inductive Step {n : Nat} : Sys n → Sys n → Prop
  | mint (s : Sys n) (i : Fin n) (h : s.procs i = .start) :
      Step s ⟨s.lock, s.counter, s.nextTok + 1,
              Function.update s.procs i (.acquiring s.nextTok)⟩
  | acquire (s : Sys n) (i : Fin n) (t : Nat)
      (h : s.procs i = .acquiring t)
      (hl : s.lock = none ∨ s.lock = some t) :
      Step s ⟨some t, s.counter, s.nextTok,
              Function.update s.procs i (.reading t)⟩
  | read (s : Sys n) (i : Fin n) (t : Nat) (h : s.procs i = .reading t) :
      Step s ⟨s.lock, s.counter, s.nextTok,
              Function.update s.procs i (.writing t s.counter)⟩
  | write (s : Sys n) (i : Fin n) (t v : Nat) (h : s.procs i = .writing t v) :
      Step s ⟨s.lock, v + 1, s.nextTok,
              Function.update s.procs i (.releasing t (v + 1))⟩
  | release (s : Sys n) (i : Fin n) (t r : Nat) (h : s.procs i = .releasing t r) :
      Step s ⟨if s.lock = some t then none else s.lock, s.counter, s.nextTok,
              Function.update s.procs i (.done t r)⟩

/-- Initial state: empty store, counter 0, no chain started. -/
def initSys (n : Nat) : Sys n := ⟨none, 0, 0, fun _ => .start⟩

/-- Reachability along interleaved steps. -/
abbrev Reach {n : Nat} : Sys n → Sys n → Prop := Relation.ReflTransGen Step

/-- Number of chains that have written the counter back. -/
def passedCount {n : Nat} (f : Fin n → Pc) : Nat :=
  (Finset.univ.filter fun i => (f i).passed = true).card

theorem passedCount_update {n : Nat} (f : Fin n → Pc) (i : Fin n) (q : Pc) :
    passedCount (Function.update f i q) + (if (f i).passed then 1 else 0) =
      passedCount f + (if q.passed then 1 else 0) := by
  classical
  unfold passedCount
  rw [Finset.card_filter, Finset.card_filter]
  rw [← Finset.add_sum_erase _ _ (Finset.mem_univ i),
      ← Finset.add_sum_erase _ _ (Finset.mem_univ i)]
  have hsum : ∑ j in Finset.univ.erase i,
      (if (Function.update f i q j).passed = true then 1 else 0) =
      ∑ j in Finset.univ.erase i, (if (f j).passed = true then 1 else 0) := by
    apply Finset.sum_congr rfl
    intro j hj
    rw [Function.update_noteq (Finset.ne_of_mem_erase hj)]
  rw [hsum, Function.update_same]
  cases hq : q.passed <;> cases hf : (f i).passed <;> simp <;> omega

/-- A chain that holds the record has minted a token. -/
theorem Pc.holding_tokOf : ∀ {p : Pc}, p.holding = true → ∃ t, p.tokOf = some t := by
  intro p h
  cases p with
  | start => exact absurd h (by simp [Pc.holding])
  | acquiring t => exact absurd h (by simp [Pc.holding])
  | reading t => exact ⟨t, rfl⟩
  | writing t v => exact ⟨t, rfl⟩
  | releasing t r => exact ⟨t, rfl⟩
  | done t r => exact absurd h (by simp [Pc.holding])

/-- The inductive invariant of the interleaving model. -/
structure SysInv {n : Nat} (s : Sys n) : Prop where
  tok_lt : ∀ i t, (s.procs i).tokOf = some t → t < s.nextTok
  tok_inj : ∀ i j t, (s.procs i).tokOf = some t → (s.procs j).tokOf = some t → i = j
  hold_lock : ∀ i, (s.procs i).holding = true → s.lock = (s.procs i).tokOf
  lock_some : ∀ t, s.lock = some t →
    ∃ i, (s.procs i).holding = true ∧ (s.procs i).tokOf = some t
  counter_eq : s.counter = passedCount s.procs
  write_val : ∀ i t v, s.procs i = .writing t v → v = s.counter
  ret_bounds : ∀ i r, (s.procs i).retOf = some r → 1 ≤ r ∧ r ≤ s.counter
  ret_inj : ∀ i j r, (s.procs i).retOf = some r → (s.procs j).retOf = some r → i = j

/-- At most one chain holds the record at a time: token agreement through the
record plus token distinctness. -/
theorem SysInv.mutex {n : Nat} {s : Sys n} (hI : SysInv s) :
    ∀ i j, (s.procs i).holding = true → (s.procs j).holding = true → i = j := by
  intro i j hi hj
  obtain ⟨ti, hti⟩ := Pc.holding_tokOf hi
  obtain ⟨tj, htj⟩ := Pc.holding_tokOf hj
  have hli := hI.hold_lock i hi
  have hlj := hI.hold_lock j hj
  rw [hti] at hli
  rw [htj] at hlj
  rw [hli] at hlj
  have : ti = tj := Option.some.inj hlj
  subst this
  exact hI.tok_inj i j ti hti htj

/-- The invariant holds initially. -/
theorem sysInv_init (n : Nat) : SysInv (initSys n) := by
  refine ⟨?_, ?_, ?_, ?_, ?_, ?_, ?_, ?_⟩
  · intro i t h
    exact absurd h (by simp [initSys, Pc.tokOf])
  · intro i j t h _
    exact absurd h (by simp [initSys, Pc.tokOf])
  · intro i h
    exact absurd h (by simp [initSys, Pc.holding])
  · intro t h
    exact absurd h (by simp [initSys])
  · simp [initSys, passedCount, Pc.passed, Pc.retOf]
  · intro i t v h
    exact absurd h (by simp [initSys])
  · intro i r h
    exact absurd h (by simp [initSys, Pc.retOf])
  · intro i j r h _
    exact absurd h (by simp [initSys, Pc.retOf])

@[simp] theorem Sys.mk_lock {n : Nat} (a : Option Nat) (b c : Nat) (d : Fin n → Pc) :
    (Sys.mk a b c d).lock = a := rfl

@[simp] theorem Sys.mk_counter {n : Nat} (a : Option Nat) (b c : Nat) (d : Fin n → Pc) :
    (Sys.mk a b c d).counter = b := rfl

@[simp] theorem Sys.mk_nextTok {n : Nat} (a : Option Nat) (b c : Nat) (d : Fin n → Pc) :
    (Sys.mk a b c d).nextTok = c := rfl

@[simp] theorem Sys.mk_procs {n : Nat} (a : Option Nat) (b c : Nat) (d : Fin n → Pc) :
    (Sys.mk a b c d).procs = d := rfl

/-- Updating a chain's program counter without changing its token leaves the
token map untouched. -/
theorem tokOf_update_eq {n : Nat} (f : Fin n → Pc) (i : Fin n) (q : Pc)
    (hq : q.tokOf = (f i).tokOf) :
    ∀ j, ((Function.update f i q) j).tokOf = (f j).tokOf := by
  intro j
  rcases eq_or_ne j i with rfl | hne
  · rw [Function.update_same, hq]
  · rw [Function.update_noteq hne]

/-- Updating a chain's program counter without changing its produced value
leaves the value map untouched. -/
theorem retOf_update_eq {n : Nat} (f : Fin n → Pc) (i : Fin n) (q : Pc)
    (hq : q.retOf = (f i).retOf) :
    ∀ j, ((Function.update f i q) j).retOf = (f j).retOf := by
  intro j
  rcases eq_or_ne j i with rfl | hne
  · rw [Function.update_same, hq]
  · rw [Function.update_noteq hne]

/-- The invariant is preserved by every interleaved step. -/
theorem SysInv.step {n : Nat} {s s2 : Sys n} (hI : SysInv s) (hstep : Step s s2) :
    SysInv s2 := by
  cases hstep with
  | mint i h =>
    refine ⟨?_, ?_, ?_, ?_, ?_, ?_, ?_, ?_⟩
    · intro j t hjt
      simp only [Sys.mk_procs, Sys.mk_nextTok] at hjt ⊢
      rcases eq_or_ne j i with rfl | hne
      · rw [Function.update_same] at hjt
        simp [Pc.tokOf] at hjt
        omega
      · rw [Function.update_noteq hne] at hjt
        have := hI.tok_lt j t hjt
        omega
    · intro j k t hj hk
      simp only [Sys.mk_procs] at hj hk
      rcases eq_or_ne j i with hji | hnej
      · rcases eq_or_ne k i with hki | hnek
        · rw [hji, hki]
        · rw [hji, Function.update_same] at hj
          rw [Function.update_noteq hnek] at hk
          simp [Pc.tokOf] at hj
          exact absurd (hI.tok_lt k t hk) (by omega)
      · rcases eq_or_ne k i with hki | hnek
        · rw [hki, Function.update_same] at hk
          rw [Function.update_noteq hnej] at hj
          simp [Pc.tokOf] at hk
          exact absurd (hI.tok_lt j t hj) (by omega)
        · rw [Function.update_noteq hnej] at hj
          rw [Function.update_noteq hnek] at hk
          exact hI.tok_inj j k t hj hk
    · intro j hj
      simp only [Sys.mk_procs, Sys.mk_lock] at hj ⊢
      rcases eq_or_ne j i with rfl | hne
      · rw [Function.update_same] at hj
        exact absurd hj (by simp [Pc.holding])
      · rw [Function.update_noteq hne] at hj
        rw [Function.update_noteq hne]
        exact hI.hold_lock j hj
    · intro t ht
      simp only [Sys.mk_lock, Sys.mk_procs] at ht ⊢
      obtain ⟨j, hjh, hjt⟩ := hI.lock_some t ht
      have hne : j ≠ i := by
        intro hji
        rw [hji, h] at hjh
        simp [Pc.holding] at hjh
      refine ⟨j, ?_, ?_⟩
      · rw [Function.update_noteq hne]
        exact hjh
      · rw [Function.update_noteq hne]
        exact hjt
    · simp only [Sys.mk_counter, Sys.mk_procs]
      have hupd := passedCount_update s.procs i (Pc.acquiring s.nextTok)
      rw [h] at hupd
      simp [Pc.passed, Pc.retOf] at hupd
      rw [hI.counter_eq, hupd]
    · intro j t v hj
      simp only [Sys.mk_procs, Sys.mk_counter] at hj ⊢
      rcases eq_or_ne j i with rfl | hne
      · rw [Function.update_same] at hj
        exact absurd hj (by simp)
      · rw [Function.update_noteq hne] at hj
        exact hI.write_val j t v hj
    · intro j r hj
      simp only [Sys.mk_procs, Sys.mk_counter] at hj ⊢
      rcases eq_or_ne j i with rfl | hne
      · rw [Function.update_same] at hj
        exact absurd hj (by simp [Pc.retOf])
      · rw [Function.update_noteq hne] at hj
        exact hI.ret_bounds j r hj
    · intro j k r hj hk
      simp only [Sys.mk_procs] at hj hk
      rcases eq_or_ne j i with rfl | hnej
      · rw [Function.update_same] at hj
        exact absurd hj (by simp [Pc.retOf])
      · rcases eq_or_ne k i with rfl | hnek
        · rw [Function.update_same] at hk
          exact absurd hk (by simp [Pc.retOf])
        · rw [Function.update_noteq hnej] at hj
          rw [Function.update_noteq hnek] at hk
          exact hI.ret_inj j k r hj hk
  | acquire i t h hl =>
    have hitok : (s.procs i).tokOf = some t := by rw [h]; rfl
    have hnohold : ∀ j, (s.procs j).holding = true → False := by
      intro j hj
      have hlj := hI.hold_lock j hj
      obtain ⟨tj, htj⟩ := Pc.holding_tokOf hj
      rcases hl with hl0 | hl1
      · rw [hl0, htj] at hlj
        exact Option.noConfusion hlj
      · rw [hl1, htj] at hlj
        have hjt : tj = t := (Option.some.inj hlj).symm
        subst hjt
        have hji := hI.tok_inj j i tj htj hitok
        rw [hji, h] at hj
        simp [Pc.holding] at hj
    have htok := tokOf_update_eq s.procs i (Pc.reading t) (by rw [h]; rfl)
    have hret := retOf_update_eq s.procs i (Pc.reading t) (by rw [h]; rfl)
    refine ⟨?_, ?_, ?_, ?_, ?_, ?_, ?_, ?_⟩
    · intro j t0 hj
      simp only [Sys.mk_procs, Sys.mk_nextTok] at hj ⊢
      rw [htok j] at hj
      exact hI.tok_lt j t0 hj
    · intro j k t0 hj hk
      simp only [Sys.mk_procs] at hj hk
      rw [htok j] at hj
      rw [htok k] at hk
      exact hI.tok_inj j k t0 hj hk
    · intro j hj
      simp only [Sys.mk_procs, Sys.mk_lock] at hj ⊢
      rcases eq_or_ne j i with rfl | hne
      · rw [Function.update_same]
        rfl
      · rw [Function.update_noteq hne] at hj
        exact absurd hj (fun hh => hnohold j hh)
    · intro t0 ht0
      simp only [Sys.mk_lock, Sys.mk_procs] at ht0 ⊢
      have ht0t : t0 = t := (Option.some.inj ht0).symm
      subst ht0t
      refine ⟨i, ?_, ?_⟩
      · rw [Function.update_same]
        rfl
      · rw [Function.update_same]
        rfl
    · simp only [Sys.mk_counter, Sys.mk_procs]
      have hupd := passedCount_update s.procs i (Pc.reading t)
      rw [h] at hupd
      simp [Pc.passed, Pc.retOf] at hupd
      rw [hI.counter_eq, hupd]
    · intro j t0 v hj
      simp only [Sys.mk_procs, Sys.mk_counter] at hj ⊢
      rcases eq_or_ne j i with rfl | hne
      · rw [Function.update_same] at hj
        exact absurd hj (by simp)
      · rw [Function.update_noteq hne] at hj
        exact hI.write_val j t0 v hj
    · intro j r hj
      simp only [Sys.mk_procs, Sys.mk_counter] at hj ⊢
      rw [hret j] at hj
      exact hI.ret_bounds j r hj
    · intro j k r hj hk
      simp only [Sys.mk_procs] at hj hk
      rw [hret j] at hj
      rw [hret k] at hk
      exact hI.ret_inj j k r hj hk
  | read i t h =>
    have hitok : (s.procs i).tokOf = some t := by rw [h]; rfl
    have hihold : (s.procs i).holding = true := by rw [h]; rfl
    have htok := tokOf_update_eq s.procs i (Pc.writing t s.counter) (by rw [h]; rfl)
    have hret := retOf_update_eq s.procs i (Pc.writing t s.counter) (by rw [h]; rfl)
    refine ⟨?_, ?_, ?_, ?_, ?_, ?_, ?_, ?_⟩
    · intro j t0 hj
      simp only [Sys.mk_procs, Sys.mk_nextTok] at hj ⊢
      rw [htok j] at hj
      exact hI.tok_lt j t0 hj
    · intro j k t0 hj hk
      simp only [Sys.mk_procs] at hj hk
      rw [htok j] at hj
      rw [htok k] at hk
      exact hI.tok_inj j k t0 hj hk
    · intro j hj
      simp only [Sys.mk_procs, Sys.mk_lock] at hj ⊢
      rcases eq_or_ne j i with hji | hne
      · rw [hji, Function.update_same]
        have hthis := hI.hold_lock i hihold
        rw [hitok] at hthis
        exact hthis
      · rw [Function.update_noteq hne] at hj
        rw [Function.update_noteq hne]
        exact hI.hold_lock j hj
    · intro t0 ht0
      simp only [Sys.mk_lock, Sys.mk_procs] at ht0 ⊢
      obtain ⟨j, hjh, hjt⟩ := hI.lock_some t0 ht0
      rcases eq_or_ne j i with rfl | hne
      · refine ⟨j, ?_, ?_⟩
        · rw [Function.update_same]
          rfl
        · rw [Function.update_same]
          rw [hitok] at hjt
          exact hjt
      · refine ⟨j, ?_, ?_⟩
        · rw [Function.update_noteq hne]
          exact hjh
        · rw [Function.update_noteq hne]
          exact hjt
    · simp only [Sys.mk_counter, Sys.mk_procs]
      have hupd := passedCount_update s.procs i (Pc.writing t s.counter)
      rw [h] at hupd
      simp [Pc.passed, Pc.retOf] at hupd
      rw [hupd]
      exact hI.counter_eq
    · intro j t0 v hj
      simp only [Sys.mk_procs, Sys.mk_counter] at hj ⊢
      rcases eq_or_ne j i with rfl | hne
      · rw [Function.update_same] at hj
        injection hj with h1 h2
        omega
      · rw [Function.update_noteq hne] at hj
        exact hI.write_val j t0 v hj
    · intro j r hj
      simp only [Sys.mk_procs, Sys.mk_counter] at hj ⊢
      rw [hret j] at hj
      exact hI.ret_bounds j r hj
    · intro j k r hj hk
      simp only [Sys.mk_procs] at hj hk
      rw [hret j] at hj
      rw [hret k] at hk
      exact hI.ret_inj j k r hj hk
  | write i t v h =>
    have hvc : v = s.counter := hI.write_val i t v h
    have hihold : (s.procs i).holding = true := by rw [h]; rfl
    have hitok : (s.procs i).tokOf = some t := by rw [h]; rfl
    have htok := tokOf_update_eq s.procs i (Pc.releasing t (v + 1)) (by rw [h]; rfl)
    refine ⟨?_, ?_, ?_, ?_, ?_, ?_, ?_, ?_⟩
    · intro j t0 hj
      simp only [Sys.mk_procs, Sys.mk_nextTok] at hj ⊢
      rw [htok j] at hj
      exact hI.tok_lt j t0 hj
    · intro j k t0 hj hk
      simp only [Sys.mk_procs] at hj hk
      rw [htok j] at hj
      rw [htok k] at hk
      exact hI.tok_inj j k t0 hj hk
    · intro j hj
      simp only [Sys.mk_procs, Sys.mk_lock] at hj ⊢
      rcases eq_or_ne j i with hji | hne
      · rw [hji, Function.update_same]
        have hthis := hI.hold_lock i hihold
        rw [hitok] at hthis
        exact hthis
      · rw [Function.update_noteq hne] at hj
        rw [Function.update_noteq hne]
        exact hI.hold_lock j hj
    · intro t0 ht0
      simp only [Sys.mk_lock, Sys.mk_procs] at ht0 ⊢
      obtain ⟨j, hjh, hjt⟩ := hI.lock_some t0 ht0
      rcases eq_or_ne j i with rfl | hne
      · refine ⟨j, ?_, ?_⟩
        · rw [Function.update_same]
          rfl
        · rw [Function.update_same]
          rw [hitok] at hjt
          exact hjt
      · refine ⟨j, ?_, ?_⟩
        · rw [Function.update_noteq hne]
          exact hjh
        · rw [Function.update_noteq hne]
          exact hjt
    · simp only [Sys.mk_counter, Sys.mk_procs]
      have hupd := passedCount_update s.procs i (Pc.releasing t (v + 1))
      rw [h] at hupd
      simp [Pc.passed, Pc.retOf] at hupd
      rw [hI.counter_eq] at hvc
      omega
    · intro j t0 v0 hj
      simp only [Sys.mk_procs, Sys.mk_counter] at hj ⊢
      rcases eq_or_ne j i with rfl | hne
      · rw [Function.update_same] at hj
        exact absurd hj (by simp)
      · rw [Function.update_noteq hne] at hj
        have hjh : (s.procs j).holding = true := by rw [hj]; rfl
        exact absurd (hI.mutex j i hjh hihold) hne
    · intro j r hj
      simp only [Sys.mk_procs, Sys.mk_counter] at hj ⊢
      rcases eq_or_ne j i with rfl | hne
      · rw [Function.update_same] at hj
        simp [Pc.retOf] at hj
        omega
      · rw [Function.update_noteq hne] at hj
        have := hI.ret_bounds j r hj
        omega
    · intro j k r hj hk
      simp only [Sys.mk_procs] at hj hk
      rcases eq_or_ne j i with hji | hnej
      · rcases eq_or_ne k i with hki | hnek
        · rw [hji, hki]
        · rw [hji, Function.update_same] at hj
          rw [Function.update_noteq hnek] at hk
          simp [Pc.retOf] at hj
          have hkb := hI.ret_bounds k r hk
          exfalso
          omega
      · rcases eq_or_ne k i with hki | hnek
        · rw [hki, Function.update_same] at hk
          rw [Function.update_noteq hnej] at hj
          simp [Pc.retOf] at hk
          have hjb := hI.ret_bounds j r hj
          exfalso
          omega
        · rw [Function.update_noteq hnej] at hj
          rw [Function.update_noteq hnek] at hk
          exact hI.ret_inj j k r hj hk
  | release i t r h =>
    have hihold : (s.procs i).holding = true := by rw [h]; rfl
    have hitok : (s.procs i).tokOf = some t := by rw [h]; rfl
    have hlock : s.lock = some t := by
      have := hI.hold_lock i hihold
      rw [hitok] at this
      exact this
    have hlock2 : (if s.lock = some t then none else s.lock) = (none : Option Nat) :=
      if_pos hlock
    have htok := tokOf_update_eq s.procs i (Pc.done t r) (by rw [h]; rfl)
    have hret := retOf_update_eq s.procs i (Pc.done t r) (by rw [h]; rfl)
    refine ⟨?_, ?_, ?_, ?_, ?_, ?_, ?_, ?_⟩
    · intro j t0 hj
      simp only [Sys.mk_procs, Sys.mk_nextTok] at hj ⊢
      rw [htok j] at hj
      exact hI.tok_lt j t0 hj
    · intro j k t0 hj hk
      simp only [Sys.mk_procs] at hj hk
      rw [htok j] at hj
      rw [htok k] at hk
      exact hI.tok_inj j k t0 hj hk
    · intro j hj
      simp only [Sys.mk_procs, Sys.mk_lock] at hj ⊢
      rcases eq_or_ne j i with rfl | hne
      · rw [Function.update_same] at hj
        exact absurd hj (by simp [Pc.holding])
      · rw [Function.update_noteq hne] at hj
        exact absurd (hI.mutex j i hj hihold) hne
    · intro t0 ht0
      simp only [Sys.mk_lock, Sys.mk_procs] at ht0
      rw [hlock2] at ht0
      exact Option.noConfusion ht0
    · simp only [Sys.mk_counter, Sys.mk_procs]
      have hupd := passedCount_update s.procs i (Pc.done t r)
      rw [h] at hupd
      simp [Pc.passed, Pc.retOf] at hupd
      rw [hI.counter_eq, hupd]
    · intro j t0 v0 hj
      simp only [Sys.mk_procs, Sys.mk_counter] at hj ⊢
      rcases eq_or_ne j i with rfl | hne
      · rw [Function.update_same] at hj
        exact absurd hj (by simp)
      · rw [Function.update_noteq hne] at hj
        exact hI.write_val j t0 v0 hj
    · intro j r0 hj
      simp only [Sys.mk_procs, Sys.mk_counter] at hj ⊢
      rw [hret j] at hj
      exact hI.ret_bounds j r0 hj
    · intro j k r0 hj hk
      simp only [Sys.mk_procs] at hj hk
      rw [hret j] at hj
      rw [hret k] at hk
      exact hI.ret_inj j k r0 hj hk

/-- Every state reachable from the initial state satisfies the invariant. -/
theorem reach_inv {n : Nat} {s : Sys n} (h : Reach (initSys n) s) : SysInv s := by
  induction h with
  | refl => exact sysInv_init n
  | tail hab hbc ih => exact SysInv.step ih hbc

/-- A chain inside its body holds the record. -/
theorem Pc.inBody_holding : ∀ {p : Pc}, p.inBody = true → p.holding = true := by
  intro p hp
  cases p with
  | reading t => rfl
  | writing t v => rfl
  | start => exact absurd hp (by simp [Pc.inBody])
  | acquiring t => exact absurd hp (by simp [Pc.inBody])
  | releasing t r => exact absurd hp (by simp [Pc.inBody])
  | done t r => exact absurd hp (by simp [Pc.inBody])

/-- Claim C1: in every reachable state of `N ≥ 2` concurrent `runWithLock`
call chains on the same key through the same store, a chain inside its body
is the owner recorded in the store, at most one chain is inside its body at
a time (store-enforced mutual exclusion), and in every complete execution
(all chains done) the returned counter values are pairwise distinct and are
exactly the set `{1, ..., N}` — no duplicate or skipped value. -/
theorem C1_mutual_exclusion {n : Nat} (hn : 2 ≤ n) (s : Sys n)
    (hs : Reach (initSys n) s) :
    (∀ i, (s.procs i).inBody = true → s.lock = (s.procs i).tokOf) ∧
    (∀ i j, (s.procs i).inBody = true → (s.procs j).inBody = true → i = j) ∧
    ((∀ i, (s.procs i).isDone = true) →
      (∀ i j r, (s.procs i).retOf = some r → (s.procs j).retOf = some r → i = j) ∧
      Finset.image (fun i => ((s.procs i).retOf).getD 0) Finset.univ =
        Finset.Icc 1 n) := by
  have hI := reach_inv hs
  refine ⟨?_, ?_, ?_⟩
  · intro i hi
    exact hI.hold_lock i (Pc.inBody_holding hi)
  · intro i j hi hj
    exact hI.mutex i j (Pc.inBody_holding hi) (Pc.inBody_holding hj)
  · intro hdone
    have hpass : ∀ i : Fin n, (s.procs i).passed = true := by
      intro i
      have hd := hdone i
      cases hp : s.procs i with
      | start => rw [hp] at hd; exact absurd hd (by simp [Pc.isDone])
      | acquiring t => rw [hp] at hd; exact absurd hd (by simp [Pc.isDone])
      | reading t => rw [hp] at hd; exact absurd hd (by simp [Pc.isDone])
      | writing t v => rw [hp] at hd; exact absurd hd (by simp [Pc.isDone])
      | releasing t r => rw [hp] at hd; exact absurd hd (by simp [Pc.isDone])
      | done t r => simp [hp, Pc.passed, Pc.retOf]
    have hrets : ∀ i : Fin n, ∃ r, (s.procs i).retOf = some r := fun i =>
      Option.isSome_iff_exists.mp (hpass i)
    have hgF : ∀ i : Fin n, (s.procs i).retOf = some (((s.procs i).retOf).getD 0) := by
      intro i
      obtain ⟨r, hr⟩ := hrets i
      simp [hr]
    have hcount : passedCount s.procs = n := by
      unfold passedCount
      rw [Finset.filter_true_of_mem (fun i _ => hpass i)]
      simp
    have hcn : s.counter = n := by rw [hI.counter_eq, hcount]
    refine ⟨fun i j r => hI.ret_inj i j r, ?_⟩
    have hinj : Set.InjOn (fun i => ((s.procs i).retOf).getD 0)
        ↑(Finset.univ : Finset (Fin n)) := by
      intro i _ j _ hij
      have hij2 : ((s.procs i).retOf).getD 0 = ((s.procs j).retOf).getD 0 := hij
      have h2 := hgF j
      rw [← hij2] at h2
      exact hI.ret_inj i j _ (hgF i) h2
    have hsub : Finset.image (fun i => ((s.procs i).retOf).getD 0) Finset.univ ⊆
        Finset.Icc 1 n := by
      intro r hr
      obtain ⟨i, _, hi⟩ := Finset.mem_image.mp hr
      have hir : (s.procs i).retOf = some r := by
        rw [hgF i]
        exact congrArg some hi
      have hb := hI.ret_bounds i r hir
      rw [hcn] at hb
      exact Finset.mem_Icc.mpr hb
    have hcard : (Finset.image (fun i => ((s.procs i).retOf).getD 0)
        Finset.univ).card = n := by
      rw [Finset.card_image_of_injOn hinj]
      simp
    have hicc : (Finset.Icc 1 n).card = n := by
      rw [Nat.card_Icc]
      omega
    refine Finset.eq_of_subset_of_card_le hsub ?_
    rw [hcard, hicc]

/-- Claim C9: in every reachable state, no two distinct call chains carry the
same owner token (each `runWithLock` invocation minted its own, and
async-local storage keeps them per-chain); a chain's token never changes
across any further step, so the release uses exactly the token the acquire
used; and the token a chain mints at its start is fresh — it differs from
every token any chain carried before the mint. -/
theorem C9_token_lifecycle {n : Nat} (s : Sys n) (hs : Reach (initSys n) s) :
    (∀ i j : Fin n, ∀ t, (s.procs i).tokOf = some t →
      (s.procs j).tokOf = some t → i = j) ∧
    (∀ s2 : Sys n, ∀ i t, Step s s2 → (s.procs i).tokOf = some t →
      (s2.procs i).tokOf = some t) ∧
    (∀ s2 : Sys n, ∀ i t, Step s s2 → s.procs i = .start →
      (s2.procs i).tokOf = some t → ∀ j, (s.procs j).tokOf ≠ some t) := by
  have hI := reach_inv hs
  refine ⟨fun i j t => hI.tok_inj i j t, ?_, ?_⟩
  · intro s2 i t hstep hts
    cases hstep with
    | mint i0 h0 =>
      simp only [Sys.mk_procs]
      rcases eq_or_ne i i0 with hii | hne
      · rw [hii, h0] at hts
        exact absurd hts (by simp [Pc.tokOf])
      · rw [Function.update_noteq hne]
        exact hts
    | acquire i0 t0 h0 hl =>
      simp only [Sys.mk_procs]
      rw [tokOf_update_eq s.procs i0 (Pc.reading t0) (by rw [h0]; rfl) i]
      exact hts
    | read i0 t0 h0 =>
      simp only [Sys.mk_procs]
      rw [tokOf_update_eq s.procs i0 (Pc.writing t0 s.counter) (by rw [h0]; rfl) i]
      exact hts
    | write i0 t0 v h0 =>
      simp only [Sys.mk_procs]
      rw [tokOf_update_eq s.procs i0 (Pc.releasing t0 (v + 1)) (by rw [h0]; rfl) i]
      exact hts
    | release i0 t0 r h0 =>
      simp only [Sys.mk_procs]
      rw [tokOf_update_eq s.procs i0 (Pc.done t0 r) (by rw [h0]; rfl) i]
      exact hts
  · intro s2 i t hstep hstart hts j
    cases hstep with
    | mint i0 h0 =>
      simp only [Sys.mk_procs] at hts
      rcases eq_or_ne i i0 with hii | hne
      · rw [hii, Function.update_same] at hts
        simp [Pc.tokOf] at hts
        intro hj
        have := hI.tok_lt j t hj
        omega
      · rw [Function.update_noteq hne, hstart] at hts
        exact absurd hts (by simp [Pc.tokOf])
    | acquire i0 t0 h0 hl =>
      simp only [Sys.mk_procs] at hts
      rcases eq_or_ne i i0 with hii | hne
      · rw [hii] at hstart
        rw [hstart] at h0
        exact absurd h0 (by simp)
      · rw [Function.update_noteq hne, hstart] at hts
        exact absurd hts (by simp [Pc.tokOf])
    | read i0 t0 h0 =>
      simp only [Sys.mk_procs] at hts
      rcases eq_or_ne i i0 with hii | hne
      · rw [hii] at hstart
        rw [hstart] at h0
        exact absurd h0 (by simp)
      · rw [Function.update_noteq hne, hstart] at hts
        exact absurd hts (by simp [Pc.tokOf])
    | write i0 t0 v h0 =>
      simp only [Sys.mk_procs] at hts
      rcases eq_or_ne i i0 with hii | hne
      · rw [hii] at hstart
        rw [hstart] at h0
        exact absurd h0 (by simp)
      · rw [Function.update_noteq hne, hstart] at hts
        exact absurd hts (by simp [Pc.tokOf])
    | release i0 t0 r h0 =>
      simp only [Sys.mk_procs] at hts
      rcases eq_or_ne i i0 with hii | hne
      · rw [hii] at hstart
        rw [hstart] at h0
        exact absurd h0 (by simp)
      · rw [Function.update_noteq hne, hstart] at hts
        exact absurd hts (by simp [Pc.tokOf])

/-- States of a concrete two-chain execution: chain 0 mints token 0,
acquires, reads 0, writes back 1, releases; then chain 1 mints token 1,
acquires, reads 1, writes back 2, releases. -/
def cS0 : Sys 2 := initSys 2

def cS1 : Sys 2 := ⟨none, 0, 1, Function.update cS0.procs 0 (.acquiring 0)⟩

def cS2 : Sys 2 := ⟨some 0, 0, 1, Function.update cS1.procs 0 (.reading 0)⟩

def cS3 : Sys 2 := ⟨some 0, 0, 1, Function.update cS2.procs 0 (.writing 0 0)⟩

def cS4 : Sys 2 := ⟨some 0, 1, 1, Function.update cS3.procs 0 (.releasing 0 1)⟩

def cS5 : Sys 2 := ⟨none, 1, 1, Function.update cS4.procs 0 (.done 0 1)⟩

def cS6 : Sys 2 := ⟨none, 1, 2, Function.update cS5.procs 1 (.acquiring 1)⟩

def cS7 : Sys 2 := ⟨some 1, 1, 2, Function.update cS6.procs 1 (.reading 1)⟩

def cS8 : Sys 2 := ⟨some 1, 1, 2, Function.update cS7.procs 1 (.writing 1 1)⟩

def cS9 : Sys 2 := ⟨some 1, 2, 2, Function.update cS8.procs 1 (.releasing 1 2)⟩

def cFinal : Sys 2 := ⟨none, 2, 2, Function.update cS9.procs 1 (.done 1 2)⟩

/-- The two-chain execution is a run of the model. -/
theorem cReachFinal : Reach (initSys 2) cFinal := by
  have h01 : Step cS0 cS1 := Step.mint cS0 0 rfl
  have h12 : Step cS1 cS2 := Step.acquire cS1 0 0 rfl (Or.inl rfl)
  have h23 : Step cS2 cS3 := Step.read cS2 0 0 rfl
  have h34 : Step cS3 cS4 := Step.write cS3 0 0 0 rfl
  have h45 : Step cS4 cS5 := Step.release cS4 0 0 1 rfl
  have h56 : Step cS5 cS6 := Step.mint cS5 1 rfl
  have h67 : Step cS6 cS7 := Step.acquire cS6 1 1 rfl (Or.inl rfl)
  have h78 : Step cS7 cS8 := Step.read cS7 1 1 rfl
  have h89 : Step cS8 cS9 := Step.write cS8 1 1 1 rfl
  have h9F : Step cS9 cFinal := Step.release cS9 1 1 2 rfl
  exact Relation.ReflTransGen.head h01 (Relation.ReflTransGen.head h12
    (Relation.ReflTransGen.head h23 (Relation.ReflTransGen.head h34
    (Relation.ReflTransGen.head h45 (Relation.ReflTransGen.head h56
    (Relation.ReflTransGen.head h67 (Relation.ReflTransGen.head h78
    (Relation.ReflTransGen.head h89 (Relation.ReflTransGen.single h9F)))))))))

/-- Witness for `C1_mutual_exclusion` on the concrete two-chain execution:
in the final state at most one chain is in its body (here none), and the
two returned values form exactly the set {1, 2}. -/
theorem C1_mutual_exclusion_witness :
    (∀ i j : Fin 2, (cFinal.procs i).inBody = true →
      (cFinal.procs j).inBody = true → i = j) ∧
    Finset.image (fun i => ((cFinal.procs i).retOf).getD 0)
      (Finset.univ : Finset (Fin 2)) = Finset.Icc 1 2 := by
  have h := C1_mutual_exclusion (by omega) cFinal cReachFinal
  exact ⟨h.2.1, (h.2.2 (by decide)).2⟩

/-- Witness for `C9_token_lifecycle` on the concrete two-chain execution:
in the final state the two chains carry distinct tokens, and a further step
cannot change a chain's token. -/
theorem C9_token_lifecycle_witness :
    (∀ i j : Fin 2, ∀ t, (cFinal.procs i).tokOf = some t →
      (cFinal.procs j).tokOf = some t → i = j) ∧
    (∀ s2 : Sys 2, ∀ i t, Step cFinal s2 → (cFinal.procs i).tokOf = some t →
      (s2.procs i).tokOf = some t) := by
  have h := C9_token_lifecycle cFinal cReachFinal
  exact ⟨h.1, h.2.1⟩

/-! ## Claim C5: blocking mode (modelled from the spec)

The repository's README documents a `blocking` option ("the maxAttempts
parameter is ignored", "retry acquisition indefinitely until successful")
and the integration test configures `blocking: true`, but no TypeScript
source under src/ implements the flag; the retry scheduler that honours it
is missing.  The definitions below are therefore modelled from the spec. -/

/-- Modelled from the spec: the retry-scheduler configuration — the
`blocking` flag and `maxAttempts` (ignored when blocking is enabled). -/
structure RetryConfig where
  blocking : Bool
  maxAttempts : Nat
deriving DecidableEq, Repr

/-- Modelled from the spec: `shouldContinue(attemptsMade, config)` — always
true in blocking mode; otherwise true while `attemptsMade < maxAttempts`. -/
def shouldContinue (attemptsMade : Nat) (cfg : RetryConfig) : Bool :=
  cfg.blocking || decide (attemptsMade < cfg.maxAttempts)

/-- Observable outcome of unrolling the acquire loop a bounded number of
times: acquired after some attempts, gave up with AcquisitionFailure, or
still running (out of unrolling fuel, loop not finished). -/
inductive LoopOutcome
  | success (attemptsMade : Nat)
  | acquisitionFailure
  | running (attemptsMade : Nat)
deriving DecidableEq, Repr

/-- Modelled from the spec: the acquire loop — before each attempt consult
`shouldContinue`; raise AcquisitionFailure when it denies, otherwise run the
conditional-acquire (`env a` is true when the key is acquirable at the
attempt made after `a` previous attempts) and stop on success.  `fuel`
bounds how far the loop is unrolled; the loop itself is unbounded in
blocking mode. -/
def retryLoop (cfg : RetryConfig) (env : Nat → Bool) : Nat → Nat → LoopOutcome
  | 0, a => .running a
  | fuel + 1, a =>
    if ¬ shouldContinue a cfg then .acquisitionFailure
    else if env a then .success a
    else retryLoop cfg env fuel (a + 1)

/-- Claim C5: with blocking enabled, the acquire loop never raises
AcquisitionFailure, however far it is unrolled and whatever `maxAttempts`
says (retry permission is unconditionally granted); and it returns success
exactly when the key first becomes acquirable. -/
theorem C5_blocking_never_fails (cfg : RetryConfig) (env : Nat → Bool)
    (hb : cfg.blocking = true) :
    (∀ fuel a, retryLoop cfg env fuel a ≠ .acquisitionFailure) ∧
    (∀ k, env k = true → (∀ a, a < k → env a = false) →
      ∀ fuel, k < fuel → retryLoop cfg env fuel 0 = .success k) := by
  have hcont : ∀ a, shouldContinue a cfg = true := by
    intro a
    simp [shouldContinue, hb]
  constructor
  · intro fuel
    induction fuel with
    | zero =>
      intro a h
      exact LoopOutcome.noConfusion h
    | succ fuel ih =>
      intro a
      rw [retryLoop, hcont a]
      simp only [Bool.not_true, Bool.false_eq_true, if_false]
      cases henv : env a with
      | true =>
        simp only [if_true]
        intro h
        exact LoopOutcome.noConfusion h
      | false =>
        simp only [Bool.false_eq_true, if_false]
        exact ih (a + 1)
  · intro k hk hbefore
    have hgen : ∀ fuel a, a ≤ k → k < a + fuel →
        retryLoop cfg env fuel a = .success k := by
      intro fuel
      induction fuel with
      | zero =>
        intro a ha hlt
        omega
      | succ fuel ih =>
        intro a ha hlt
        rw [retryLoop, hcont a]
        simp only [Bool.not_true, Bool.false_eq_true, if_false]
        rcases Nat.eq_or_lt_of_le ha with rfl | halt
        · rw [hk]
          simp
        · rw [hbefore a halt]
          simp only [Bool.false_eq_true, if_false]
          exact ih (a + 1) (by omega) (by omega)
    intro fuel hfuel
    exact hgen fuel 0 (by omega) (by omega)

/-- Witness for `C5_blocking_never_fails`: blocking mode with
`maxAttempts = 1` and a key that becomes acquirable only at the third
attempt — the loop is past `maxAttempts` yet never raises, and succeeds at
attempt index 2. -/
theorem C5_blocking_never_fails_witness :
    retryLoop ⟨true, 1⟩ (fun a => decide (a = 2)) 3 0 ≠ .acquisitionFailure ∧
    retryLoop ⟨true, 1⟩ (fun a => decide (a = 2)) 5 0 = .success 2 := by
  have h := C5_blocking_never_fails ⟨true, 1⟩ (fun a => decide (a = 2)) rfl
  refine ⟨h.1 3 0, ?_⟩
  exact h.2 2 (by decide) (fun a ha => by interval_cases a <;> rfl) 5 (by decide)
